import Mathlib

/-!
Verification of the tsClusters k-means engine (src/tsClusters/tsClusters.h)
against its natural-language specification.

Shallow embedding choices:
* The template parameter `T` is instantiated with `float` in the test
  harness; we embed coordinate values as `ℚ` (exact arithmetic) and model
  the two `std::numeric_limits<float>` constants symbolically:
  `tmax` stands for `std::numeric_limits<float>::max()` and `tminPos`
  for `std::numeric_limits<float>::min()` — which for floating-point
  types is the smallest *positive* normal value, not the most negative
  value.
* `unsigned int` counters wrap modulo `2^32`; we keep them as `ℕ` and
  apply `% 2^32` exactly where the C++ increments/casts an unsigned int.
* Undefined behaviour (out-of-bounds reads) and NaN production
  (`fmod(x, 0)`) are modelled by `Option`: a `none` result marks that the
  C++ execution performed an out-of-bounds access or produced a NaN.
* `rand()` is modelled by an explicit stream `r : ℕ → ℕ` of non-negative
  draws, consumed in program order.
-/

/-- Models `std::numeric_limits<float>::max()`. -/
def tmax : ℚ := 2 ^ 128

/-- Models `std::numeric_limits<float>::min()`: the smallest positive
normal float `2^(-126)`, NOT the least representable value. -/
def tminPos : ℚ := 1 / 2 ^ 126

/-- Models `std::numeric_limits<unsigned int>::max()`. -/
def uintMax : ℕ := 2 ^ 32 - 1

/-- The struct `data_structure`: one data point with its coordinates `p`,
assigned cluster index `ci` and squared distance to that cluster. -/
structure DataStructure where
  p : List ℚ
  ci : ℕ
  distance_squared : ℚ
deriving DecidableEq, Repr, Inhabited

/-- The state of a `tsClusters<float>` object: the point vector `data`,
the center vector `clusters`, the dimensionality `stride`, the requested
cluster count `number_of_clusters` and the moved counter
`data_points_moved` (the mutex, log file and cpu count carry no
algorithmic state and are omitted). -/
structure TsClusters where
  data : List DataStructure
  clusters : List (List ℚ)
  stride : ℕ
  number_of_clusters : ℕ
  data_points_moved : ℕ
deriving DecidableEq, Repr, Inhabited

/-- The default constructor `tsClusters()`: empty data and clusters,
`stride = 0`, `number_of_clusters = 0`, and `data_points_moved`
initialized to `std::numeric_limits<unsigned int>::max()`. -/
def tsClustersInit : TsClusters :=
  { data := [], clusters := [], stride := 0, number_of_clusters := 0,
    data_points_moved := uintMax }

/-- The primitive `compute_squared_distance(pointA, pointB)`: the loop
runs `while (it_a != pointA.end() && it_b != pointB.end())`, accumulating
`(*it_a - *it_b)^2`; it therefore stops at the end of the SHORTER
sequence. -/
def compute_squared_distance : List ℚ → List ℚ → ℚ
  | a :: as, b :: bs => (a - b) * (a - b) + compute_squared_distance as bs
  | _, _ => 0

/-- The method `set_number_of_clusters(input_number)`: updates
`number_of_clusters` only when the argument is nonzero. -/
def set_number_of_clusters (s : TsClusters) (input_number : ℕ) : TsClusters :=
  if input_number ≠ 0 then { s with number_of_clusters := input_number } else s

/-! ### The data loader `fill_data_array`

The C++ loop `for (i = 0; i < input_size; i++)` builds one point per
outer iteration: it pushes `input_data[i]` and then, in an inner
`while (ds.p.size() < stride)` loop, increments `i` and pushes
`input_data[i]` until the point holds `stride` values.  The inner loop
does NOT test `i < input_size`, so when the remaining elements run out it
reads past the end of the buffer; we model that out-of-bounds read as
`none`.  `takeChunk n` consumes the `n` further reads of one inner loop,
`chunkLoop` is the outer loop (its fuel, set to the list length, bounds
the number of outer iterations, each of which consumes at least one
element, so the fuel is never exhausted). -/

def takeChunk : ℕ → List ℚ → Option (List ℚ × List ℚ)
  | 0, xs => some ([], xs)
  | _ + 1, [] => none
  | n + 1, x :: xs => (takeChunk n xs).map (fun q => (x :: q.1, q.2))

def chunkLoop : ℕ → ℕ → List ℚ → Option (List (List ℚ))
  | _, _, [] => some []
  | 0, _, _ :: _ => none
  | fuel + 1, stride, x :: xs =>
    match takeChunk (stride - 1) xs with
    | none => none
    | some (c, rest) => (chunkLoop fuel stride rest).map (fun l => (x :: c) :: l)

def chunkPoints (stride : ℕ) (input : List ℚ) : Option (List (List ℚ)) :=
  chunkLoop input.length stride input

/-- The method `fill_data_array(input_data, input_size, input_stride)`.
The buffer is modelled as `Option (List ℚ)` (with `none` a null pointer)
whose length is `input_size`.  The guard
`if (!input_data || !input_size || !input_stride) return 0;` leaves the
state untouched; otherwise `number_of_clusters` and `stride` are set
BEFORE the copy loop, each chunk becomes a point with `ci = 0` and
`distance_squared = max`, the points are pushed onto the EXISTING `data`
vector (the method never clears it), and the return value is
`(unsigned int)(data->size() * data->begin()->p.size())`.  The outer
`none` marks the out-of-bounds read that occurs when `input_size` is not
divisible by `input_stride`. -/
def fill_data_array (s : TsClusters) (input? : Option (List ℚ))
    (input_stride : ℕ) : Option (TsClusters × ℕ) :=
  match input? with
  | none => some (s, 0)
  | some input =>
    if input.length = 0 ∨ input_stride = 0 then some (s, 0)
    else
      match chunkPoints input_stride input with
      | none => none
      | some chunks =>
        let pts := chunks.map (fun c =>
          { p := c, ci := 0, distance_squared := tmax : DataStructure })
        let data' := s.data ++ pts
        some ({ s with data := data', stride := input_stride,
                       number_of_clusters := input_stride },
              (data'.length * ((data'.headD default).p.length)) % 2 ^ 32)

/-! ### Basic facts about the loader -/

theorem takeChunk_of_le (n : ℕ) :
    ∀ xs : List ℚ, n ≤ xs.length →
      takeChunk n xs = some (xs.take n, xs.drop n) := by
  induction n with
  | zero => intro xs _; simp [takeChunk]
  | succ m ih =>
    intro xs h
    match xs with
    | [] => simp at h
    | x :: xs' =>
      simp only [List.length_cons, Nat.succ_le_succ_iff] at h
      simp [takeChunk, ih xs' h]

theorem takeChunk_none (n : ℕ) :
    ∀ xs : List ℚ, xs.length < n → takeChunk n xs = none := by
  induction n with
  | zero => intro xs h; omega
  | succ m ih =>
    intro xs h
    match xs with
    | [] => rfl
    | x :: xs' =>
      simp only [List.length_cons] at h
      simp [takeChunk, ih xs' (by omega)]

theorem chunkLoop_divisible (stride : ℕ) (hs : 0 < stride) :
    ∀ n fuel (l : List ℚ), l.length = n * stride → l.length ≤ fuel →
      ∃ cs, chunkLoop fuel stride l = some cs ∧
        cs.length = n ∧
        (∀ k, k < n → cs.getD k [] = (l.drop (k * stride)).take stride) := by
  intro n
  induction n with
  | zero =>
    intro fuel l hl _
    simp only [Nat.zero_mul, List.length_eq_zero] at hl
    subst hl
    refine ⟨[], ?_, rfl, ?_⟩
    · cases fuel <;> rfl
    · intro k hk; omega
  | succ m ih =>
    intro fuel l hl hfuel
    have hlen : l.length = m * stride + stride := by rw [hl]; ring
    match l, fuel with
    | [], _ => simp only [List.length_nil] at hlen; omega
    | x :: xs, 0 => simp at hfuel
    | x :: xs, fuel + 1 =>
      have hxs : stride - 1 ≤ xs.length := by
        simp only [List.length_cons] at hlen; omega
      have hrest : (xs.drop (stride - 1)).length = m * stride := by
        simp only [List.length_drop]
        simp only [List.length_cons] at hlen
        omega
      have hfuel' : (xs.drop (stride - 1)).length ≤ fuel := by
        rw [hrest]
        simp only [List.length_cons] at hlen hfuel
        omega
      obtain ⟨cs, hcs, hcslen, hget⟩ := ih fuel (xs.drop (stride - 1)) hrest hfuel'
      refine ⟨(x :: xs.take (stride - 1)) :: cs, ?_, by simp [hcslen], ?_⟩
      · simp only [chunkLoop, takeChunk_of_le (stride - 1) xs hxs, hcs]
        rfl
      · intro k hk
        match k with
        | 0 =>
          simp only [List.getD_cons_zero, Nat.zero_mul, List.drop_zero]
          have hstep : stride = (stride - 1) + 1 := by omega
          rw [hstep, List.take_succ_cons]
          simp only [Nat.add_sub_cancel]
        | k + 1 =>
          have hk' : k < m := by omega
          have hrec := hget k hk'
          simp only [List.getD_cons_succ]
          rw [hrec, List.drop_drop, Nat.add_comm (stride - 1) (k * stride)]
          have hnum : (k + 1) * stride = k * stride + (stride - 1) + 1 := by
            match stride, hs with
            | t + 1, _ =>
              simp only [Nat.add_sub_cancel]
              ring
          rw [hnum, List.drop_succ_cons]

/-! ### Claims about the squared-distance primitive -/

/-- C7 counterexample: at the unequal-length pair `([3, 100], [3])` the
primitive silently returns the truncated sum `0` — the same value as for
`([3], [3])` — instead of signalling any error. -/
theorem compute_squared_distance_no_length_check :
    compute_squared_distance [3, 100] [3] = 0 ∧
      compute_squared_distance [3, 100] [3] = compute_squared_distance [3] [3] := by
  constructor <;> norm_num [compute_squared_distance]

/-- C7 (amended): for every pair of coordinate sequences, including pairs
of unequal length, `compute_squared_distance` returns the sum of squared
per-dimension differences over the common prefix (the zip of the two
sequences): mismatched lengths are silently truncated to the shorter
sequence, with no length check and no error signal. -/
theorem compute_squared_distance_truncating (a b : List ℚ) :
    compute_squared_distance a b =
      ((a.zip b).map (fun q => (q.1 - q.2) * (q.1 - q.2))).sum := by
  induction a generalizing b with
  | nil => cases b <;> simp [compute_squared_distance]
  | cons x xs ih =>
    cases b with
    | nil => simp [compute_squared_distance]
    | cons y ys => simp [compute_squared_distance, ih ys]

/-! ### Claims about the data loader -/

/-- C3: at `input = [1, 2, 3]` with `stride = 2` (length not divisible by
the stride) the loader does NOT reject the input: it runs its copy loop,
whose inner `while (ds.p.size() < stride)` advances `i` past the end of
the buffer and reads `input_data[3]` out of bounds (modelled by `none`),
after having already overwritten `stride` and `number_of_clusters`. -/
theorem fill_data_array_oob_on_nondivisible :
    fill_data_array tsClustersInit (some [1, 2, 3]) 2 = none ∧ (3 : ℕ) % 2 ≠ 0 := by
  constructor <;> decide

/-- C4: a valid load (`input` non-null and non-empty, `stride ≠ 0`,
`stride ∣ length`, on an engine with no points loaded) succeeds, stores
exactly `length / stride` points whose coordinates are the contiguous
slices of the input in order, sets the engine's stride and (as a
default) `number_of_clusters` to the given stride, and returns the
number of coordinate values stored (point count × stride). -/
theorem fill_data_array_valid_load (s : TsClusters) (input : List ℚ) (st : ℕ)
    (hdata : s.data = []) (hlen : input.length ≠ 0) (hst : st ≠ 0)
    (hdvd : st ∣ input.length) (hsize : input.length < 2 ^ 32) :
    ∃ s' n, fill_data_array s (some input) st = some (s', n) ∧
      s'.data.length = input.length / st ∧
      (∀ k, k < input.length / st →
        (s'.data.getD k default).p = (input.drop (k * st)).take st) ∧
      s'.stride = st ∧ s'.number_of_clusters = st ∧
      n = s'.data.length * st := by
  have hst' : 0 < st := Nat.pos_of_ne_zero hst
  have hstle : st ≤ input.length := Nat.le_of_dvd (Nat.pos_of_ne_zero hlen) hdvd
  have hmul : input.length = (input.length / st) * st :=
    (Nat.div_mul_cancel hdvd).symm
  obtain ⟨cs, hcs, hcslen, hget⟩ :=
    chunkLoop_divisible st hst' (input.length / st) input.length input hmul le_rfl
  have hfill : chunkPoints st input = some cs := hcs
  have hcount_pos : 0 < input.length / st :=
    Nat.div_pos hstle hst'
  obtain ⟨c, rest, hcase⟩ : ∃ c rest, cs = c :: rest := by
    match cs, hcslen with
    | [], h => simp only [List.length_nil] at h; omega
    | c :: rest, _ => exact ⟨c, rest, rfl⟩
  subst hcase
  have hc : c = input.take st := by
    have h0 := hget 0 hcount_pos
    simpa using h0
  have hclen : c.length = st := by
    rw [hc, List.length_take, Nat.min_eq_left hstle]
  simp only [fill_data_array, hfill]
  rw [if_neg (not_or.mpr ⟨hlen, hst⟩)]
  refine ⟨_, _, rfl, ?_, ?_, rfl, rfl, ?_⟩
  · simp only [hdata, List.nil_append, List.length_map]
    exact hcslen
  · intro k hk
    simp only [hdata, List.nil_append]
    have hkcs : k < (c :: rest).length := by omega
    rw [List.getD_eq_getElem _ _ (by simpa using hkcs), List.getElem_map,
      ← List.getD_eq_getElem (c :: rest) ([] : List ℚ) hkcs]
    exact hget k hk
  · simp only [hdata, List.nil_append, List.map_cons, List.headD_cons,
      List.length_cons, List.length_map]
    show ((rest.length + 1) * c.length) % 2 ^ 32 = (rest.length + 1) * st
    rw [hclen]
    apply Nat.mod_eq_of_lt
    have hcount : rest.length + 1 = input.length / st := by
      simpa using hcslen
    rw [hcount, ← hmul]
    exact hsize

/-- C4 witness: loading `[1, 2, 3, 4]` with stride 2 into a fresh engine
stores the two points `[1, 2]` and `[3, 4]` and returns 4. -/
theorem fill_data_array_valid_load_witness :
    tsClustersInit.data = [] ∧ (2 : ℕ) ∣ ([1, 2, 3, 4] : List ℚ).length ∧
    (∃ s' n, fill_data_array tsClustersInit (some [1, 2, 3, 4]) 2 = some (s', n) ∧
      s'.data.length = ([1, 2, 3, 4] : List ℚ).length / 2 ∧
      (∀ k, k < ([1, 2, 3, 4] : List ℚ).length / 2 →
        (s'.data.getD k default).p = (([1, 2, 3, 4] : List ℚ).drop (k * 2)).take 2) ∧
      s'.stride = 2 ∧ s'.number_of_clusters = 2 ∧
      n = s'.data.length * 2) :=
  ⟨rfl, by decide,
    fill_data_array_valid_load tsClustersInit [1, 2, 3, 4] 2 rfl
      (by decide) (by decide) (by decide) (by decide)⟩

/-! ### The cluster initializer `initialize_clusters`

The bounds scan: `ub[j]` starts at `std::numeric_limits<T>::min()` —
for `T = float` that is the smallest POSITIVE normal value `tminPos`,
not the least representable value — and `lb[j]` starts at
`std::numeric_limits<T>::max()`.  Each point's coordinates are compared
slot by slot (`i` counts the coordinate position inside the point, as in
the C++ inner `while` loop). -/

def scanPoint : (ℕ → ℚ) → (ℕ → ℚ) → List ℚ → ℕ → (ℕ → ℚ) × (ℕ → ℚ)
  | ub, lb, [], _ => (ub, lb)
  | ub, lb, v :: rest, i =>
      scanPoint (fun j => if j = i then (if v > ub j then v else ub j) else ub j)
                (fun j => if j = i then (if v < lb j then v else lb j) else lb j)
                rest (i + 1)

def scanBounds (dataL : List DataStructure) : (ℕ → ℚ) × (ℕ → ℚ) :=
  dataL.foldl (fun q dp => scanPoint q.1 q.2 dp.p 0)
    ((fun _ => tminPos), (fun _ => tmax))

/-- Truncation toward zero, as C arithmetic conversions do. -/
def truncQ (q : ℚ) : ℤ := if 0 ≤ q then ⌊q⌋ else ⌈q⌉

/-- C `std::fmod(x, m) = x - trunc(x / m) * m`; `fmod(x, 0)` is NaN,
modelled as `none`. -/
def fmodQ (x m : ℚ) : Option ℚ :=
  if m = 0 then none else some (x - (truncQ (x / m) : ℚ) * m)

/-- Option-valued map over a list, failing as soon as one element fails
(the NaN marker propagates outward). -/
def mapMO {α β : Type} (f : α → Option β) : List α → Option (List β)
  | [] => some []
  | a :: as =>
    match f a with
    | none => none
    | some b => (mapMO f as).map (fun bs => b :: bs)

/-- The method `initialize_clusters()` with the `rand()` stream `r`
(consumed in program order: draw `idxC * stride + idxS` feeds dimension
`idxS` of new center `idxC`).  The guard
`if (!stride || !number_of_clusters) return;` is a silent no-op.  Each
new center coordinate is `fmod(rand(), ub[idxS] - lb[idxS]) + lb[idxS]`,
and the centers are pushed onto the EXISTING `clusters` vector (the
method never clears it).  A `none` result marks a NaN coordinate
(zero-width bound). -/
def initialize_clusters (s : TsClusters) (r : ℕ → ℕ) : Option TsClusters :=
  if s.stride = 0 ∨ s.number_of_clusters = 0 then some s
  else
    (mapMO (fun idxC =>
        mapMO (fun idxS =>
          (fmodQ ((r (idxC * s.stride + idxS) : ℕ) : ℚ)
              ((scanBounds s.data).1 idxS - (scanBounds s.data).2 idxS)).map
            (fun f => f + (scanBounds s.data).2 idxS)) (List.range s.stride))
      (List.range s.number_of_clusters)).map
      (fun cps => { s with clusters := s.clusters ++ cps })

/-- A two-point, one-dimensional dataset whose coordinates are all
negative: minimum `-10`, maximum `-5`. -/
def negState : TsClusters :=
  { data := [⟨[-10], 0, tmax⟩, ⟨[-5], 0, tmax⟩], clusters := [],
    stride := 1, number_of_clusters := 1, data_points_moved := uintMax }

/-- A two-point, one-dimensional dataset that is constant (degenerate):
every coordinate equals `1`, so `min = max = 1`. -/
def constState : TsClusters :=
  { data := [⟨[1], 0, tmax⟩, ⟨[1], 0, tmax⟩], clusters := [],
    stride := 1, number_of_clusters := 1, data_points_moved := uintMax }

theorem initialize_one_dim_one_cluster (s : TsClusters) (r : ℕ → ℕ)
    (hst : s.stride = 1) (hk : s.number_of_clusters = 1) :
    initialize_clusters s r =
      (fmodQ ((r 0 : ℕ) : ℚ) ((scanBounds s.data).1 0 - (scanBounds s.data).2 0)).map
        (fun f => { s with clusters := s.clusters ++ [[f + (scanBounds s.data).2 0]] }) := by
  have hr1 : List.range 1 = [0] := by simp [List.range_succ]
  simp only [initialize_clusters, hst, hk, hr1]
  rw [if_neg (by omega)]
  simp only [mapMO, Nat.mul_one, Nat.zero_mul, Nat.add_zero, Nat.zero_add]
  cases hf : fmodQ ((r 0 : ℕ) : ℚ) ((scanBounds s.data).1 0 - (scanBounds s.data).2 0) with
  | none => simp [hf]
  | some f => simp [hf]

/-- C5: on the all-negative dataset of `negState` (minimum `-10`,
maximum `-5` in dimension 0) with the `rand()` draw 8, initialization
generates the center coordinate `-2`, which lies OUTSIDE
`[min_0, max_0] = [-10, -5]`: the upper-bound scan starts at
`std::numeric_limits<float>::min()`, a small positive value no negative
coordinate can exceed, so the recorded upper bound is wrong. -/
theorem initialize_clusters_escapes_bounds_on_negative_data :
    (initialize_clusters negState (fun _ => 8)).map TsClusters.clusters =
      some [[-2]] ∧
    (∀ dp ∈ negState.data, dp.p.getD 0 0 ≤ -5) ∧ ¬((-2 : ℚ) ≤ -5) := by
  have hub : (scanBounds negState.data).1 0 = tminPos := by
    simp only [negState, scanBounds, List.foldl_cons, List.foldl_nil, scanPoint]
    norm_num [tminPos, tmax]
  have hlb : (scanBounds negState.data).2 0 = -10 := by
    simp only [negState, scanBounds, List.foldl_cons, List.foldl_nil, scanPoint]
    norm_num [tminPos, tmax]
  have hfm : fmodQ ((8 : ℕ) : ℚ) (tminPos - (-10)) = some 8 := by
    have hmne : tminPos - (-10 : ℚ) ≠ 0 := by norm_num [tminPos]
    have hpos : (0 : ℚ) < tminPos - (-10) := by norm_num [tminPos]
    have hql : (0 : ℚ) ≤ ((8 : ℕ) : ℚ) / (tminPos - (-10)) :=
      div_nonneg (by norm_num) hpos.le
    have hqu : ((8 : ℕ) : ℚ) / (tminPos - (-10)) < 1 := by
      rw [div_lt_one hpos]
      norm_num [tminPos]
    have htr : truncQ (((8 : ℕ) : ℚ) / (tminPos - (-10))) = 0 := by
      unfold truncQ
      rw [if_pos hql, Int.floor_eq_zero_iff, Set.mem_Ico]
      exact ⟨hql, hqu⟩
    unfold fmodQ
    rw [if_neg hmne, htr]
    norm_num
  refine ⟨?_, by norm_num [negState], by norm_num⟩
  rw [initialize_one_dim_one_cluster negState _ rfl rfl, hub, hlb, hfm]
  have : (8 : ℚ) + (-10) = -2 := by norm_num
  simp [negState, this]

/-- C6: on the constant (degenerate) dataset of `constState`
(`min = max = 1` in dimension 0) the bound width is `0`, so the
generated coordinate is `fmod(rand(), 0)`, which is NaN (modelled
`none`): the code does not collapse the draw to the constant value. -/
theorem initialize_clusters_nan_on_constant_dimension :
    (∀ dp ∈ constState.data, dp.p.getD 0 0 = 1) ∧
    initialize_clusters constState (fun _ => 0) = none := by
  have hub : (scanBounds constState.data).1 0 = 1 := by
    simp only [constState, scanBounds, List.foldl_cons, List.foldl_nil, scanPoint]
    norm_num [tminPos, tmax]
  have hlb : (scanBounds constState.data).2 0 = 1 := by
    simp only [constState, scanBounds, List.foldl_cons, List.foldl_nil, scanPoint]
    norm_num [tminPos, tmax]
  refine ⟨by norm_num [constState], ?_⟩
  rw [initialize_one_dim_one_cluster constState _ rfl rfl, hub, hlb]
  norm_num [fmodQ]

/-- C9 counterexample: loading `[2]` into an engine that already holds
the point `[1]` yields a data vector that still contains the old point
`[1]` (followed by `[2]`), not "exactly the new points":
`fill_data_array` never clears the `data` vector. -/
theorem fill_data_array_retains_old_points :
    fill_data_array tsClustersInit (some [1]) 1 =
      some ({ data := [⟨[1], 0, tmax⟩], clusters := [], stride := 1,
              number_of_clusters := 1, data_points_moved := uintMax }, 1) ∧
    fill_data_array
        { data := [⟨[1], 0, tmax⟩], clusters := [], stride := 1,
          number_of_clusters := 1, data_points_moved := uintMax } (some [2]) 1 =
      some ({ data := [⟨[1], 0, tmax⟩, ⟨[2], 0, tmax⟩], clusters := [], stride := 1,
              number_of_clusters := 1, data_points_moved := uintMax }, 2) ∧
    ([⟨[1], 0, tmax⟩, ⟨[2], 0, tmax⟩] : List DataStructure) ≠ [⟨[2], 0, tmax⟩] := by
  refine ⟨rfl, rfl, ?_⟩
  intro h
  exact absurd (congrArg List.length h) (by norm_num)

/-- C9 (amended): a successful load APPENDS the new points after any
previously loaded ones, retaining the old points as a prefix, and a
successful initialization APPENDS the freshly drawn centers after any
existing ones, retaining the old centers as a prefix (neither method
clears its vector). -/
theorem load_and_initialize_append (s : TsClusters) :
    (∀ inp st s' n, fill_data_array s (some inp) st = some (s', n) →
      s'.data.take s.data.length = s.data) ∧
    (∀ r s', initialize_clusters s r = some s' →
      s'.clusters.take s.clusters.length = s.clusters) := by
  constructor
  · intro inp st s' n h
    simp only [fill_data_array] at h
    by_cases hc : inp.length = 0 ∨ st = 0
    · rw [if_pos hc] at h
      simp only [Option.some.injEq, Prod.mk.injEq] at h
      rw [← h.1, List.take_length]
    · rw [if_neg hc] at h
      cases hcp : chunkPoints st inp with
      | none => rw [hcp] at h; exact absurd h (by simp)
      | some cs =>
        rw [hcp] at h
        simp only [Option.some.injEq, Prod.mk.injEq] at h
        rw [← h.1]
        exact List.take_left s.data _
  · intro r s' h
    simp only [initialize_clusters] at h
    by_cases hc : s.stride = 0 ∨ s.number_of_clusters = 0
    · rw [if_pos hc] at h
      simp only [Option.some.injEq] at h
      rw [← h, List.take_length]
    · rw [if_neg hc] at h
      cases hcp : mapMO (fun idxC =>
          mapMO (fun idxS =>
            (fmodQ ((r (idxC * s.stride + idxS) : ℕ) : ℚ)
                ((scanBounds s.data).1 idxS - (scanBounds s.data).2 idxS)).map
              (fun f => f + (scanBounds s.data).2 idxS)) (List.range s.stride))
          (List.range s.number_of_clusters) with
      | none => rw [hcp] at h; exact absurd h (by simp)
      | some cps =>
        rw [hcp] at h
        rw [Option.map_some'] at h
        rw [Option.some.injEq] at h
        rw [← h]
        exact List.take_left s.clusters _

/-! ### The assignment step `assign_clusters`

The inner loop state: `bi`/`bd` are `closest_cluster_index` /
`closest_cluster_distance` and `k` is `current_cluster_index`; the
minimum is updated only on STRICT improvement
(`if (computed_distance < closest_cluster_distance)`). -/

def closestFold (p : List ℚ) : List (List ℚ) → ℕ → ℚ → ℕ → ℕ × ℚ × ℕ
  | [], bi, bd, k => (bi, bd, k)
  | c :: rest, bi, bd, k =>
    if compute_squared_distance p c < bd then
      closestFold p rest k (compute_squared_distance p c) (k + 1)
    else
      closestFold p rest bi bd (k + 1)

/-- One iteration of the outer loop of `assign_clusters`: the
accumulator holds (processed points, `data_points_moved`,
`closest_cluster_index`).  The C++ declares `closest_cluster_index`
OUTSIDE the point loop and never resets it per point, so its value is
carried from one point to the next, while `closest_cluster_distance` IS
reset to `max` for every point.  The moved counter compares the point's
old `ci` with the new index BEFORE overwriting it, wrapping as an
`unsigned int`. -/
def assignStep (cs : List (List ℚ)) (acc : List DataStructure × ℕ × ℕ)
    (dp : DataStructure) : List DataStructure × ℕ × ℕ :=
  (acc.1 ++ [⟨dp.p, (closestFold dp.p cs acc.2.2 tmax 0).1,
             (closestFold dp.p cs acc.2.2 tmax 0).2.1⟩],
   if dp.ci ≠ (closestFold dp.p cs acc.2.2 tmax 0).1
     then (acc.2.1 + 1) % 2 ^ 32 else acc.2.1,
   (closestFold dp.p cs acc.2.2 tmax 0).1)

/-- The method `assign_clusters()`: `data_points_moved` starts at 0 and
every point is visited in order, the final counter and rewritten point
vector replacing the old ones. -/
def assign_clusters (s : TsClusters) : TsClusters :=
  { s with
    data := (s.data.foldl (assignStep s.clusters) ([], 0, 0)).1,
    data_points_moved := (s.data.foldl (assignStep s.clusters) ([], 0, 0)).2.1 }

/-- The result of the inner loop for one point when the carried-in
index is 0 (under the preconditions of C1 this is what every point
gets, whatever index was carried in). -/
def assignPoint (cs : List (List ℚ)) (dp : DataStructure) : DataStructure :=
  ⟨dp.p, (closestFold dp.p cs 0 tmax 0).1, (closestFold dp.p cs 0 tmax 0).2.1⟩

/-- Full characterization of the inner loop: either no center beats the
incoming best distance `bd` and the incoming index is kept, or the
result is the FIRST center achieving the strict minimum of the
distances (ties go to the lowest index because only strict improvement
updates the running minimum). -/
theorem closestFold_spec (p : List ℚ) :
    ∀ (cs : List (List ℚ)) (bi : ℕ) (bd : ℚ) (k : ℕ),
      (closestFold p cs bi bd k).2.2 = k + cs.length ∧
      (((closestFold p cs bi bd k).1 = bi ∧ (closestFold p cs bi bd k).2.1 = bd ∧
          ∀ j, j < cs.length → bd ≤ compute_squared_distance p (cs.getD j [])) ∨
        (∃ j, j < cs.length ∧ (closestFold p cs bi bd k).1 = k + j ∧
          (closestFold p cs bi bd k).2.1 = compute_squared_distance p (cs.getD j []) ∧
          (closestFold p cs bi bd k).2.1 < bd ∧
          (∀ l, l < cs.length →
            (closestFold p cs bi bd k).2.1 ≤ compute_squared_distance p (cs.getD l [])) ∧
          (∀ l, l < j →
            (closestFold p cs bi bd k).2.1 < compute_squared_distance p (cs.getD l [])))) := by
  intro cs
  induction cs with
  | nil =>
    intro bi bd k
    refine ⟨by simp [closestFold], Or.inl ⟨rfl, rfl, ?_⟩⟩
    intro j hj
    simp at hj
  | cons c rest ih =>
    intro bi bd k
    by_cases hd : compute_squared_distance p c < bd
    · simp only [closestFold, if_pos hd]
      obtain ⟨hlen, hcases⟩ := ih k (compute_squared_distance p c) (k + 1)
      refine ⟨by rw [hlen]; simp [Nat.add_assoc, Nat.add_comm 1], ?_⟩
      cases hcases with
      | inl hsame =>
        obtain ⟨h1, h2, h3⟩ := hsame
        refine Or.inr ⟨0, by simp, by simpa using h1, by simpa using h2, ?_, ?_, ?_⟩
        · rw [h2]; exact hd
        · intro l hl
          match l with
          | 0 =>
            simp only [List.getD_cons_zero, h2]
            exact le_rfl
          | l + 1 =>
            simp only [List.getD_cons_succ]
            rw [h2]
            exact h3 l (by simpa using hl)
        · intro l hl
          omega
      | inr hfound =>
        obtain ⟨j, hj, h1, h2, h3, h4, h5⟩ := hfound
        refine Or.inr ⟨j + 1, by simpa using hj, by omega, by simpa using h2, ?_, ?_, ?_⟩
        · exact lt_trans h3 hd
        · intro l hl
          match l with
          | 0 => simpa using le_of_lt h3
          | l + 1 =>
            simp only [List.getD_cons_succ]
            exact h4 l (by simpa using hl)
        · intro l hl
          match l with
          | 0 => simpa using h3
          | l + 1 =>
            simp only [List.getD_cons_succ]
            exact h5 l (by omega)
    · simp only [closestFold, if_neg hd]
      obtain ⟨hlen, hcases⟩ := ih bi bd (k + 1)
      refine ⟨by rw [hlen]; simp [Nat.add_assoc, Nat.add_comm 1], ?_⟩
      push_neg at hd
      cases hcases with
      | inl hsame =>
        obtain ⟨h1, h2, h3⟩ := hsame
        refine Or.inl ⟨h1, h2, ?_⟩
        intro j hj
        match j with
        | 0 => simpa using hd
        | j + 1 =>
          simp only [List.getD_cons_succ]
          exact h3 j (by simpa using hj)
      | inr hfound =>
        obtain ⟨j, hj, h1, h2, h3, h4, h5⟩ := hfound
        refine Or.inr ⟨j + 1, by simpa using hj, by omega, by simpa using h2, h3, ?_, ?_⟩
        · intro l hl
          match l with
          | 0 => simpa using le_of_lt (lt_of_lt_of_le h3 hd)
          | l + 1 =>
            simp only [List.getD_cons_succ]
            exact h4 l (by simpa using hl)
        · intro l hl
          match l with
          | 0 => simpa using lt_of_lt_of_le h3 hd
          | l + 1 =>
            simp only [List.getD_cons_succ]
            exact h5 l (by omega)

/-- When the first center already beats the reset distance `max`, the
carried-in index is overwritten at the first iteration, so the inner
loop's result does not depend on it. -/
theorem closestFold_carried_irrel (p c0 : List ℚ) (rest : List (List ℚ))
    (carried : ℕ) (h : compute_squared_distance p c0 < tmax) :
    closestFold p (c0 :: rest) carried tmax 0 =
      closestFold p (c0 :: rest) 0 tmax 0 := by
  simp only [closestFold, if_pos h]

/-- Shape of the outer loop when the carried index is irrelevant for
every point: the processed points are appended in order, each rewritten
by `assignPoint`, and the moved counter accumulates (mod `2^32`) the
number of points whose old index differs from the new one. -/
theorem assignFold_shape (cs : List (List ℚ)) :
    ∀ (dataL done : List DataStructure) (m c0 : ℕ), m < 2 ^ 32 →
      (∀ dp ∈ dataL, ∀ carried,
        closestFold dp.p cs carried tmax 0 = closestFold dp.p cs 0 tmax 0) →
      (dataL.foldl (assignStep cs) (done, m, c0)).1 =
        done ++ dataL.map (assignPoint cs) ∧
      (dataL.foldl (assignStep cs) (done, m, c0)).2.1 =
        (m + dataL.countP (fun dp => decide (dp.ci ≠ (assignPoint cs dp).ci))) % 2 ^ 32 := by
  intro dataL
  induction dataL with
  | nil =>
    intro done m c0 hm _
    refine ⟨by simp, ?_⟩
    simp only [List.foldl_nil, List.countP_nil, Nat.add_zero]
    exact (Nat.mod_eq_of_lt hm).symm
  | cons dp rest ih =>
    intro done m c0 hm H
    have hdp := H dp (List.mem_cons_self dp rest) c0
    have hstep : assignStep cs (done, m, c0) dp =
        (done ++ [assignPoint cs dp],
         if dp.ci ≠ (assignPoint cs dp).ci then (m + 1) % 2 ^ 32 else m,
         (assignPoint cs dp).ci) := by
      simp only [assignStep, hdp]
      rfl
    rw [List.foldl_cons, hstep]
    by_cases hmove : dp.ci ≠ (assignPoint cs dp).ci
    · rw [if_pos hmove]
      obtain ⟨ha, hb⟩ := ih (done ++ [assignPoint cs dp]) ((m + 1) % 2 ^ 32)
        ((assignPoint cs dp).ci) (Nat.mod_lt _ (by norm_num))
        (fun q hq carried => H q (List.mem_cons_of_mem dp hq) carried)
      refine ⟨by rw [ha]; simp, ?_⟩
      rw [hb, Nat.mod_add_mod, List.countP_cons_of_pos _ _ (by simpa using hmove)]
      congr 1
      omega
    · rw [if_neg hmove]
      obtain ⟨ha, hb⟩ := ih (done ++ [assignPoint cs dp]) m
        ((assignPoint cs dp).ci) hm
        (fun q hq carried => H q (List.mem_cons_of_mem dp hq) carried)
      refine ⟨by rw [ha]; simp, ?_⟩
      rw [hb, List.countP_cons_of_neg _ _ (by simpa using hmove)]

/-- Shape of the outer loop with an EMPTY center vector: the inner loop
never runs, so every point receives the carried index — which starts at
0 and is never changed — and the reset distance `max`. -/
theorem assignFold_empty :
    ∀ (dataL done : List DataStructure) (m : ℕ), m < 2 ^ 32 →
      (dataL.foldl (assignStep []) (done, m, 0)).1 =
        done ++ dataL.map (fun dp => ⟨dp.p, 0, tmax⟩) ∧
      (dataL.foldl (assignStep []) (done, m, 0)).2.1 =
        (m + dataL.countP (fun dp => decide (dp.ci ≠ 0))) % 2 ^ 32 := by
  intro dataL
  induction dataL with
  | nil =>
    intro done m hm
    refine ⟨by simp, ?_⟩
    simp only [List.foldl_nil, List.countP_nil, Nat.add_zero]
    exact (Nat.mod_eq_of_lt hm).symm
  | cons dp rest ih =>
    intro done m hm
    have hstep : assignStep [] (done, m, 0) dp =
        (done ++ [⟨dp.p, 0, tmax⟩],
         if dp.ci ≠ 0 then (m + 1) % 2 ^ 32 else m, 0) := by
      simp only [assignStep, closestFold]
    rw [List.foldl_cons, hstep]
    by_cases hmove : dp.ci ≠ 0
    · rw [if_pos hmove]
      obtain ⟨ha, hb⟩ := ih (done ++ [⟨dp.p, 0, tmax⟩]) ((m + 1) % 2 ^ 32)
        (Nat.mod_lt _ (by norm_num))
      refine ⟨by rw [ha]; simp, ?_⟩
      rw [hb, Nat.mod_add_mod, List.countP_cons_of_pos _ _ (by simpa using hmove)]
      congr 1
      omega
    · rw [if_neg hmove]
      obtain ⟨ha, hb⟩ := ih (done ++ [⟨dp.p, 0, tmax⟩]) m hm
      refine ⟨by rw [ha]; simp, ?_⟩
      rw [hb, List.countP_cons_of_neg _ _ (by simpa using hmove)]

/-- Counting moved points over the (old, new) zip equals counting over
the old list when the new list is its pointwise image. -/
theorem countP_zip_map (g : DataStructure → DataStructure) :
    ∀ l : List DataStructure,
      List.countP (fun q => decide (q.1.ci ≠ q.2.ci)) (l.zip (l.map g)) =
        l.countP (fun dp => decide (dp.ci ≠ (g dp).ci)) := by
  intro l
  induction l with
  | nil => rfl
  | cons dp rest ih =>
    simp only [List.map_cons, List.zip_cons_cons, List.countP_cons, ih]

/-- What C1 asserts of one assignment pass: the point count is
unchanged; every point keeps its coordinates, is assigned a valid
center index whose squared distance is recorded, no center is strictly
closer, and every center with a smaller index is strictly farther (so
ties go to the lowest index); and the moved counter equals the number
of positions whose old cluster index differs from the new one. -/
def AssignSpec (s : TsClusters) : Prop :=
  (assign_clusters s).data.length = s.data.length ∧
  (∀ i, i < s.data.length →
    ((assign_clusters s).data.getD i default).p = (s.data.getD i default).p ∧
    ((assign_clusters s).data.getD i default).ci < s.clusters.length ∧
    ((assign_clusters s).data.getD i default).distance_squared =
      compute_squared_distance (s.data.getD i default).p
        (s.clusters.getD ((assign_clusters s).data.getD i default).ci []) ∧
    (∀ l, l < s.clusters.length →
      ((assign_clusters s).data.getD i default).distance_squared ≤
        compute_squared_distance (s.data.getD i default).p (s.clusters.getD l [])) ∧
    (∀ l, l < ((assign_clusters s).data.getD i default).ci →
      ((assign_clusters s).data.getD i default).distance_squared <
        compute_squared_distance (s.data.getD i default).p (s.clusters.getD l []))) ∧
  (assign_clusters s).data_points_moved =
    List.countP (fun q => decide (q.1.ci ≠ q.2.ci))
      (s.data.zip (assign_clusters s).data)

/-- C1: with at least one center, all squared distances below the
`max` sentinel and fewer than `2^32` points, an assignment pass gives
every point the center with the strictly smallest squared distance
(ties to the lowest index), records that distance, and counts exactly
the points whose cluster index changed (old value compared before the
overwrite). -/
theorem assign_clusters_selects_strict_minimum (s : TsClusters)
    (hne : s.clusters ≠ [])
    (hdist : ∀ dp ∈ s.data, ∀ c ∈ s.clusters, compute_squared_distance dp.p c < tmax)
    (hcount : s.data.length < 2 ^ 32) :
    AssignSpec s := by
  have hc0len : 0 < s.clusters.length := List.length_pos.mpr hne
  obtain ⟨c0, csrest, hcs⟩ := List.exists_cons_of_ne_nil hne
  have H : ∀ dp ∈ s.data, ∀ carried,
      closestFold dp.p s.clusters carried tmax 0 =
        closestFold dp.p s.clusters 0 tmax 0 := by
    intro dp hdp carried
    rw [hcs]
    exact closestFold_carried_irrel dp.p c0 csrest carried
      (hdist dp hdp c0 (by rw [hcs]; exact List.mem_cons_self c0 csrest))
  have hshape := assignFold_shape s.clusters s.data [] 0 0 (by norm_num) H
  have hdata : (assign_clusters s).data = s.data.map (assignPoint s.clusters) := by
    show (s.data.foldl (assignStep s.clusters) ([], 0, 0)).1 = _
    rw [hshape.1]
    simp
  have hmoved : (assign_clusters s).data_points_moved =
      s.data.countP (fun dp => decide (dp.ci ≠ (assignPoint s.clusters dp).ci)) := by
    show (s.data.foldl (assignStep s.clusters) ([], 0, 0)).2.1 = _
    rw [hshape.2, Nat.zero_add]
    exact Nat.mod_eq_of_lt (lt_of_le_of_lt (List.countP_le_length _) hcount)
  refine ⟨by rw [hdata]; simp, ?_, ?_⟩
  · intro i hi
    have hgi : (assign_clusters s).data.getD i default =
        assignPoint s.clusters (s.data.getD i default) := by
      rw [hdata, List.getD_eq_getElem _ _ (by simpa using hi), List.getElem_map,
        ← List.getD_eq_getElem s.data default hi]
    have hmem : s.data.getD i default ∈ s.data := by
      rw [List.getD_eq_getElem s.data default hi]
      exact List.getElem_mem _
    obtain ⟨hl2, hcases⟩ :=
      closestFold_spec (s.data.getD i default).p s.clusters 0 tmax 0
    cases hcases with
    | inl hnone =>
      exfalso
      have hc0mem : s.clusters.getD 0 [] ∈ s.clusters := by
        rw [List.getD_eq_getElem s.clusters [] hc0len]
        exact List.getElem_mem _
      exact absurd (hnone.2.2 0 hc0len) (not_le.mpr (hdist _ hmem _ hc0mem))
    | inr hfound =>
      obtain ⟨j, hj, hidx, hdval, _, hmin, hstrict⟩ := hfound
      rw [Nat.zero_add] at hidx
      rw [hgi]
      simp only [assignPoint]
      rw [hidx]
      exact ⟨trivial, hj, hdval, hmin, fun l hl => hstrict l hl⟩
  · rw [hmoved, hdata, countP_zip_map]

/-- C1 witness: two 1-D points `[0]` (previously in cluster 1) and
`[3]` (previously in cluster 0) against centers `[0]` and `[4]`. -/
theorem assign_clusters_selects_strict_minimum_witness :
    ({ data := [⟨[0], 1, 0⟩, ⟨[3], 0, 0⟩], clusters := [[0], [4]], stride := 1,
       number_of_clusters := 2, data_points_moved := uintMax } : TsClusters).clusters ≠ [] ∧
    AssignSpec
      { data := [⟨[0], 1, 0⟩, ⟨[3], 0, 0⟩], clusters := [[0], [4]], stride := 1,
        number_of_clusters := 2, data_points_moved := uintMax } :=
  ⟨by simp,
    assign_clusters_selects_strict_minimum _ (by simp)
      (by
        intro dp hdp c hc
        fin_cases hdp <;> fin_cases hc <;>
          norm_num [compute_squared_distance, tmax])
      (by norm_num)⟩

/-- C10: if the center vector is empty, the inner loop never runs, so
`closest_cluster_index` keeps its initial value 0 for every point and
`closest_cluster_distance` stays at the reset value `max`; every
point's index becomes 0, its distance `max`, and the moved counter is
the number of points whose prior index was nonzero. -/
theorem assign_clusters_empty_centers (s : TsClusters) (hcl : s.clusters = [])
    (hcount : s.data.length < 2 ^ 32) :
    (assign_clusters s).data = s.data.map (fun dp => ⟨dp.p, 0, tmax⟩) ∧
    (assign_clusters s).data_points_moved =
      s.data.countP (fun dp => decide (dp.ci ≠ 0)) := by
  have h := assignFold_empty s.data [] 0 (by norm_num)
  constructor
  · show (s.data.foldl (assignStep s.clusters) ([], 0, 0)).1 = _
    rw [hcl, h.1]
    simp
  · show (s.data.foldl (assignStep s.clusters) ([], 0, 0)).2.1 = _
    rw [hcl, h.2, Nat.zero_add]
    exact Nat.mod_eq_of_lt (lt_of_le_of_lt (List.countP_le_length _) hcount)

/-- C10 witness: two 1-D points, the first previously in cluster 2, the
second in cluster 0, assigned with an empty center vector. -/
theorem assign_clusters_empty_centers_witness :
    (assign_clusters
      { data := [⟨[1], 2, 5⟩, ⟨[2], 0, 7⟩], clusters := [], stride := 1,
        number_of_clusters := 1, data_points_moved := 0 }).data =
      ([⟨[1], 2, 5⟩, ⟨[2], 0, 7⟩] : List DataStructure).map (fun dp => ⟨dp.p, 0, tmax⟩) ∧
    (assign_clusters
      { data := [⟨[1], 2, 5⟩, ⟨[2], 0, 7⟩], clusters := [], stride := 1,
        number_of_clusters := 1, data_points_moved := 0 }).data_points_moved =
      ([⟨[1], 2, 5⟩, ⟨[2], 0, 7⟩] : List DataStructure).countP
        (fun dp => decide (dp.ci ≠ 0)) :=
  assign_clusters_empty_centers _ rfl (by norm_num)

/-- C9 witness: instantiating the amended append property at the
engine already holding point `[1]` and the load of `[2]`. -/
theorem load_and_initialize_append_witness :
    ([⟨[1], 0, tmax⟩, ⟨[2], 0, tmax⟩] : List DataStructure).take 1 =
      [⟨[1], 0, tmax⟩] :=
  (load_and_initialize_append
    { data := [⟨[1], 0, tmax⟩], clusters := [], stride := 1,
      number_of_clusters := 1, data_points_moved := uintMax }).1 [2] 1
    { data := [⟨[1], 0, tmax⟩, ⟨[2], 0, tmax⟩], clusters := [], stride := 1,
      number_of_clusters := 1, data_points_moved := uintMax } 2 rfl

/-! ### Centroid recomputation `compute_centroids`

The C++ iterates `i` over `[0, number_of_clusters)`; for each `i` it
accumulates, walking the point vector once, the per-dimension sums
(`accum[Tcounter] += ...` with `Tcounter` the position inside the
point) and the count of points with `ci == i` (an `unsigned int`), then
walks the center vector out to position `i` and overwrites each slot
with `accum[j] / data_point_counter`.  Walking out to position `i`
dereferences the end iterator — undefined behaviour, modelled `none` —
when `number_of_clusters` exceeds the center count.  Each rewrite
touches only center `i` and reads only the point data, which the method
never modifies, so the index loop is modelled as a positional rewrite
of the center list.  Division by a zero count (an empty cluster) is the
C++ division by zero; in `ℚ` the term denotes `x / 0 = 0`, and no claim
refers to that value. -/

def addPointAux : (ℕ → ℚ) → List ℚ → ℕ → (ℕ → ℚ)
  | acc, [], _ => acc
  | acc, v :: rest, k =>
    addPointAux (fun j => if j = k then acc j + v else acc j) rest (k + 1)

def centroidAccum (dataL : List DataStructure) (i : ℕ) : (ℕ → ℚ) × ℕ :=
  dataL.foldl
    (fun q dp => if dp.ci = i then (addPointAux q.1 dp.p 0, (q.2 + 1) % 2 ^ 32) else q)
    ((fun _ => 0), 0)

def divAccum (acc : ℕ → ℚ) (cnt : ℕ) : List ℚ → ℕ → List ℚ
  | [], _ => []
  | _ :: rest, j => (acc j / (cnt : ℚ)) :: divAccum acc cnt rest (j + 1)

def updateCenters (dataL : List DataStructure) (K : ℕ) :
    List (List ℚ) → ℕ → List (List ℚ)
  | [], _ => []
  | c :: rest, i =>
    (if i < K then
      divAccum (centroidAccum dataL i).1 (centroidAccum dataL i).2 c 0
     else c) :: updateCenters dataL K rest (i + 1)

def compute_centroids (s : TsClusters) : Option TsClusters :=
  if s.stride = 0 ∨ s.number_of_clusters = 0 then some s
  else if s.clusters.length < s.number_of_clusters then none
  else some { s with clusters := updateCenters s.data s.number_of_clusters s.clusters 0 }

/-- The points currently assigned to cluster `i`. -/
def clusterPoints (dataL : List DataStructure) (i : ℕ) : List DataStructure :=
  dataL.filter (fun dp => decide (dp.ci = i))

/-- The arithmetic mean demanded by the spec: per dimension, the sum of
coordinates over exactly the points assigned to cluster `i`, divided by
their count. -/
def specMean (dataL : List DataStructure) (i j : ℕ) : ℚ :=
  ((clusterPoints dataL i).map (fun dp => dp.p.getD j 0)).sum /
    ((clusterPoints dataL i).length : ℚ)

theorem addPointAux_lt : ∀ (p : List ℚ) (acc : ℕ → ℚ) (k j : ℕ), j < k →
    addPointAux acc p k j = acc j := by
  intro p
  induction p with
  | nil => intro acc k j _; rfl
  | cons v rest ih =>
    intro acc k j hj
    simp only [addPointAux]
    rw [ih _ (k + 1) j (by omega)]
    simp only [if_neg (by omega : ¬(j = k))]

theorem addPointAux_add : ∀ (p : List ℚ) (acc : ℕ → ℚ) (k j : ℕ),
    addPointAux acc p k (k + j) =
      if j < p.length then acc (k + j) + p.getD j 0 else acc (k + j) := by
  intro p
  induction p with
  | nil =>
    intro acc k j
    rw [if_neg (by simp)]
    rfl
  | cons v rest ih =>
    intro acc k j
    simp only [addPointAux, List.length_cons]
    match j with
    | 0 =>
      rw [addPointAux_lt rest _ (k + 1) (k + 0) (by omega)]
      simp
    | j + 1 =>
      have harg : k + (j + 1) = (k + 1) + j := by omega
      rw [harg, ih _ (k + 1) j]
      have hne : ¬((k + 1) + j = k) := by omega
      by_cases hj : j < rest.length
      · rw [if_pos hj, if_pos (show j + 1 < rest.length + 1 by omega)]
        simp only [if_neg hne, List.getD_cons_succ]
      · rw [if_neg hj, if_neg (show ¬(j + 1 < rest.length + 1) by omega)]
        simp only [if_neg hne]

theorem centroidAccumFold_count (i : ℕ) :
    ∀ (dataL : List DataStructure) (acc : ℕ → ℚ) (cnt : ℕ), cnt < 2 ^ 32 →
      (dataL.foldl
        (fun q dp => if dp.ci = i then (addPointAux q.1 dp.p 0, (q.2 + 1) % 2 ^ 32) else q)
        (acc, cnt)).2 =
        (cnt + dataL.countP (fun dp => decide (dp.ci = i))) % 2 ^ 32 := by
  intro dataL
  induction dataL with
  | nil =>
    intro acc cnt hc
    simp only [List.foldl_nil, List.countP_nil, Nat.add_zero]
    exact (Nat.mod_eq_of_lt hc).symm
  | cons dp rest ih =>
    intro acc cnt hc
    rw [List.foldl_cons]
    by_cases hci : dp.ci = i
    · rw [if_pos hci, ih _ _ (Nat.mod_lt _ (by norm_num)),
        Nat.mod_add_mod, List.countP_cons_of_pos _ _ (by simpa using hci)]
      congr 1
      omega
    · rw [if_neg hci, ih _ _ hc,
        List.countP_cons_of_neg _ _ (by simpa using hci)]

theorem centroidAccumFold_sum (i j : ℕ) :
    ∀ (dataL : List DataStructure) (acc : ℕ → ℚ) (cnt : ℕ),
      (∀ dp ∈ dataL, dp.ci = i → j < dp.p.length) →
      (dataL.foldl
        (fun q dp => if dp.ci = i then (addPointAux q.1 dp.p 0, (q.2 + 1) % 2 ^ 32) else q)
        (acc, cnt)).1 j =
        acc j + ((dataL.filter (fun dp => decide (dp.ci = i))).map
          (fun dp => dp.p.getD j 0)).sum := by
  intro dataL
  induction dataL with
  | nil =>
    intro acc cnt _
    simp
  | cons dp rest ih =>
    intro acc cnt hwf
    rw [List.foldl_cons]
    by_cases hci : dp.ci = i
    · rw [if_pos hci, ih _ _ (fun q hq => hwf q (List.mem_cons_of_mem dp hq)),
        List.filter_cons_of_pos (by simpa using hci)]
      have hjp : j < dp.p.length := hwf dp (List.mem_cons_self dp rest) hci
      have := addPointAux_add dp.p acc 0 j
      rw [Nat.zero_add] at this
      rw [this, if_pos hjp]
      simp only [List.map_cons, List.sum_cons]
      ring
    · rw [if_neg hci, ih _ _ (fun q hq => hwf q (List.mem_cons_of_mem dp hq)),
        List.filter_cons_of_neg (by simpa using hci)]

theorem updateCenters_length (dataL : List DataStructure) (K : ℕ) :
    ∀ (cs : List (List ℚ)) (i0 : ℕ),
      (updateCenters dataL K cs i0).length = cs.length := by
  intro cs
  induction cs with
  | nil => intro i0; rfl
  | cons c rest ih =>
    intro i0
    simp only [updateCenters, List.length_cons, ih (i0 + 1)]

theorem updateCenters_getD (dataL : List DataStructure) (K : ℕ) :
    ∀ (cs : List (List ℚ)) (i0 k : ℕ), k < cs.length →
      (updateCenters dataL K cs i0).getD k [] =
        if i0 + k < K then
          divAccum (centroidAccum dataL (i0 + k)).1
            (centroidAccum dataL (i0 + k)).2 (cs.getD k []) 0
        else cs.getD k [] := by
  intro cs
  induction cs with
  | nil => intro i0 k hk; simp at hk
  | cons c rest ih =>
    intro i0 k hk
    match k with
    | 0 =>
      simp only [updateCenters, List.getD_cons_zero, Nat.add_zero]
    | k + 1 =>
      simp only [updateCenters, List.getD_cons_succ]
      rw [ih (i0 + 1) k (by simpa using hk)]
      have harg : i0 + 1 + k = i0 + (k + 1) := by omega
      rw [harg]

theorem divAccum_getD :
    ∀ (c : List ℚ) (acc : ℕ → ℚ) (cnt : ℕ) (j0 j : ℕ), j < c.length →
      (divAccum acc cnt c j0).getD j 0 = acc (j0 + j) / (cnt : ℚ) := by
  intro c
  induction c with
  | nil => intro acc cnt j0 j hj; simp at hj
  | cons v rest ih =>
    intro acc cnt j0 j hj
    match j with
    | 0 => simp only [divAccum, List.getD_cons_zero, Nat.add_zero]
    | j + 1 =>
      simp only [divAccum, List.getD_cons_succ]
      rw [ih _ _ (j0 + 1) j (by simpa using hj)]
      have harg : j0 + 1 + j = j0 + (j + 1) := by omega
      rw [harg]

/-- C2: on a well-formed state (every point and center has `stride`
coordinates, `number_of_clusters` within the center count, nonzero
stride, fewer than `2^32` points), recomputation succeeds, keeps the
number of centers unchanged, and gives every cluster `i` (within
`[0, number_of_clusters)`) that has at least one assigned point a
center whose every dimension is the arithmetic mean — sum divided by
count — of that dimension over exactly the points with `ci = i`. -/
theorem compute_centroids_nonempty_mean (s : TsClusters) (i : ℕ)
    (hwfp : ∀ dp ∈ s.data, dp.p.length = s.stride)
    (hwfc : ∀ c ∈ s.clusters, c.length = s.stride)
    (hK : s.number_of_clusters ≤ s.clusters.length)
    (hst : s.stride ≠ 0)
    (hi : i < s.number_of_clusters)
    (hne : (clusterPoints s.data i).length ≠ 0)
    (hcnt : s.data.length < 2 ^ 32) :
    ∃ s', compute_centroids s = some s' ∧
      s'.clusters.length = s.clusters.length ∧
      (∀ j, j < s.stride →
        (s'.clusters.getD i []).getD j 0 = specMean s.data i j) := by
  have hKne : s.number_of_clusters ≠ 0 := by omega
  have heq : compute_centroids s =
      some { s with clusters := updateCenters s.data s.number_of_clusters s.clusters 0 } := by
    simp only [compute_centroids]
    rw [if_neg (not_or.mpr ⟨hst, hKne⟩), if_neg (not_lt.mpr hK)]
  refine ⟨_, heq, ?_, ?_⟩
  · simp only [updateCenters_length]
  · intro j hj
    have hilen : i < s.clusters.length := lt_of_lt_of_le hi hK
    have hgi := updateCenters_getD s.data s.number_of_clusters s.clusters 0 i hilen
    rw [Nat.zero_add] at hgi
    simp only [hgi, if_pos hi]
    have hcmem : s.clusters.getD i [] ∈ s.clusters := by
      rw [List.getD_eq_getElem s.clusters [] hilen]
      exact List.getElem_mem _
    have hclen : (s.clusters.getD i []).length = s.stride := hwfc _ hcmem
    rw [divAccum_getD _ _ _ 0 j (by omega), Nat.zero_add]
    have hsum := centroidAccumFold_sum i j s.data (fun _ => 0) 0
      (fun dp hdp hci => by rw [hwfp dp hdp]; omega)
    have hcount := centroidAccumFold_count i s.data (fun _ => 0) 0 (by norm_num)
    have h1 : (centroidAccum s.data i).1 j =
        ((s.data.filter (fun dp => decide (dp.ci = i))).map
          (fun dp => dp.p.getD j 0)).sum := by
      show (s.data.foldl _ ((fun _ => 0), 0)).1 j = _
      rw [hsum]
      simp
    have h2 : (centroidAccum s.data i).2 =
        (s.data.filter (fun dp => decide (dp.ci = i))).length := by
      show (s.data.foldl _ ((fun _ => 0), 0)).2 = _
      rw [hcount, Nat.zero_add, List.countP_eq_length_filter]
      exact Nat.mod_eq_of_lt
        (lt_of_le_of_lt (List.length_filter_le _ _) hcnt)
    rw [h1, h2]
    rfl

/-- C2 witness: three 2-D points, the first two in cluster 0 with mean
`(2, 4)`, applied at cluster index 0. -/
theorem compute_centroids_nonempty_mean_witness :
    (clusterPoints
      ([⟨[1, 3], 0, 0⟩, ⟨[3, 5], 0, 0⟩, ⟨[10, 20], 1, 0⟩] : List DataStructure)
      0).length ≠ 0 ∧
    (∃ s', compute_centroids
        { data := [⟨[1, 3], 0, 0⟩, ⟨[3, 5], 0, 0⟩, ⟨[10, 20], 1, 0⟩],
          clusters := [[0, 0], [9, 9]], stride := 2, number_of_clusters := 2,
          data_points_moved := 0 } = some s' ∧
      s'.clusters.length =
        ({ data := [⟨[1, 3], 0, 0⟩, ⟨[3, 5], 0, 0⟩, ⟨[10, 20], 1, 0⟩],
           clusters := [[0, 0], [9, 9]], stride := 2, number_of_clusters := 2,
           data_points_moved := 0 } : TsClusters).clusters.length ∧
      (∀ j, j < 2 →
        (s'.clusters.getD 0 []).getD j 0 =
          specMean [⟨[1, 3], 0, 0⟩, ⟨[3, 5], 0, 0⟩, ⟨[10, 20], 1, 0⟩] 0 j)) :=
  ⟨by decide,
    compute_centroids_nonempty_mean
      { data := [⟨[1, 3], 0, 0⟩, ⟨[3, 5], 0, 0⟩, ⟨[10, 20], 1, 0⟩],
        clusters := [[0, 0], [9, 9]], stride := 2, number_of_clusters := 2,
        data_points_moved := 0 } 0
      (by intro dp hdp; fin_cases hdp <;> rfl)
      (by intro c hc; fin_cases hc <;> rfl)
      (by norm_num) (by norm_num) (by norm_num) (by decide) (by norm_num)⟩

/-! ### Reachable engine states and the moved-count invariant -/

/-- States reachable through the public operations, starting from the
default constructor. -/
inductive ReachableTs : TsClusters → Prop
  | init : ReachableTs tsClustersInit
  | load : ∀ s inp st s' n, ReachableTs s →
      fill_data_array s inp st = some (s', n) → ReachableTs s'
  | setk : ∀ s k, ReachableTs s → ReachableTs (set_number_of_clusters s k)
  | initc : ∀ s r s', ReachableTs s → initialize_clusters s r = some s' →
      ReachableTs s'
  | assign : ∀ s, ReachableTs s → ReachableTs (assign_clusters s)
  | recompute : ∀ s s', ReachableTs s → compute_centroids s = some s' →
      ReachableTs s'

theorem fill_data_array_moved_and_growth (s : TsClusters)
    (inp : Option (List ℚ)) (st : ℕ) (s' : TsClusters) (n : ℕ)
    (h : fill_data_array s inp st = some (s', n)) :
    s'.data_points_moved = s.data_points_moved ∧
      s.data.length ≤ s'.data.length := by
  match inp with
  | none =>
    simp only [fill_data_array, Option.some.injEq, Prod.mk.injEq] at h
    rw [← h.1]
    exact ⟨rfl, le_rfl⟩
  | some input =>
    simp only [fill_data_array] at h
    by_cases hc : input.length = 0 ∨ st = 0
    · rw [if_pos hc] at h
      simp only [Option.some.injEq, Prod.mk.injEq] at h
      rw [← h.1]
      exact ⟨rfl, le_rfl⟩
    · rw [if_neg hc] at h
      cases hcp : chunkPoints st input with
      | none => rw [hcp] at h; exact absurd h (by simp)
      | some cs =>
        rw [hcp] at h
        simp only [Option.some.injEq, Prod.mk.injEq] at h
        rw [← h.1]
        exact ⟨rfl, by simp⟩

theorem initialize_clusters_moved_and_data (s : TsClusters) (r : ℕ → ℕ)
    (s' : TsClusters) (h : initialize_clusters s r = some s') :
    s'.data_points_moved = s.data_points_moved ∧ s'.data = s.data := by
  simp only [initialize_clusters] at h
  by_cases hc : s.stride = 0 ∨ s.number_of_clusters = 0
  · rw [if_pos hc] at h
    simp only [Option.some.injEq] at h
    rw [← h]
    exact ⟨rfl, rfl⟩
  · rw [if_neg hc] at h
    cases hcp : mapMO (fun idxC =>
        mapMO (fun idxS =>
          (fmodQ ((r (idxC * s.stride + idxS) : ℕ) : ℚ)
              ((scanBounds s.data).1 idxS - (scanBounds s.data).2 idxS)).map
            (fun f => f + (scanBounds s.data).2 idxS)) (List.range s.stride))
        (List.range s.number_of_clusters) with
    | none => rw [hcp] at h; exact absurd h (by simp)
    | some cps =>
      rw [hcp, Option.map_some', Option.some.injEq] at h
      rw [← h]
      exact ⟨rfl, rfl⟩

theorem set_number_of_clusters_moved_and_data (s : TsClusters) (k : ℕ) :
    (set_number_of_clusters s k).data_points_moved = s.data_points_moved ∧
      (set_number_of_clusters s k).data = s.data := by
  unfold set_number_of_clusters
  split <;> exact ⟨rfl, rfl⟩

theorem compute_centroids_moved_and_data (s s' : TsClusters)
    (h : compute_centroids s = some s') :
    s'.data_points_moved = s.data_points_moved ∧ s'.data = s.data := by
  simp only [compute_centroids] at h
  by_cases hc : s.stride = 0 ∨ s.number_of_clusters = 0
  · rw [if_pos hc] at h
    simp only [Option.some.injEq] at h
    rw [← h]
    exact ⟨rfl, rfl⟩
  · rw [if_neg hc] at h
    by_cases hl : s.clusters.length < s.number_of_clusters
    · rw [if_pos hl] at h
      exact absurd h (by simp)
    · rw [if_neg hl] at h
      simp only [Option.some.injEq] at h
      rw [← h]
      exact ⟨rfl, rfl⟩

/-- Unconditional bounds on one assignment pass: the point count is
preserved and the moved counter cannot exceed the starting value plus
the number of points processed. -/
theorem assignFold_bounds (cs : List (List ℚ)) :
    ∀ (dataL done : List DataStructure) (m c0 : ℕ),
      (dataL.foldl (assignStep cs) (done, m, c0)).1.length =
        done.length + dataL.length ∧
      (dataL.foldl (assignStep cs) (done, m, c0)).2.1 ≤ m + dataL.length := by
  intro dataL
  induction dataL with
  | nil => intro done m c0; exact ⟨by simp, by simp⟩
  | cons dp rest ih =>
    intro done m c0
    rw [List.foldl_cons]
    have hm' : (if dp.ci ≠ (closestFold dp.p cs c0 tmax 0).1
        then (m + 1) % 2 ^ 32 else m) ≤ m + 1 := by
      split
      · exact le_trans (Nat.mod_le _ _) le_rfl
      · omega
    obtain ⟨ha, hb⟩ := ih (done ++ [⟨dp.p, (closestFold dp.p cs c0 tmax 0).1,
      (closestFold dp.p cs c0 tmax 0).2.1⟩])
      (if dp.ci ≠ (closestFold dp.p cs c0 tmax 0).1 then (m + 1) % 2 ^ 32 else m)
      ((closestFold dp.p cs c0 tmax 0).1)
    refine ⟨?_, ?_⟩
    · rw [show assignStep cs (done, m, c0) dp =
        (done ++ [⟨dp.p, (closestFold dp.p cs c0 tmax 0).1,
          (closestFold dp.p cs c0 tmax 0).2.1⟩],
         if dp.ci ≠ (closestFold dp.p cs c0 tmax 0).1 then (m + 1) % 2 ^ 32 else m,
         (closestFold dp.p cs c0 tmax 0).1) from rfl]
      rw [ha]
      simp only [List.length_append, List.length_cons, List.length_nil]
      omega
    · rw [show assignStep cs (done, m, c0) dp =
        (done ++ [⟨dp.p, (closestFold dp.p cs c0 tmax 0).1,
          (closestFold dp.p cs c0 tmax 0).2.1⟩],
         if dp.ci ≠ (closestFold dp.p cs c0 tmax 0).1 then (m + 1) % 2 ^ 32 else m,
         (closestFold dp.p cs c0 tmax 0).1) from rfl]
      refine le_trans hb ?_
      simp only [List.length_cons]
      omega

theorem assign_clusters_moved_le (s : TsClusters) :
    (assign_clusters s).data.length = s.data.length ∧
      (assign_clusters s).data_points_moved ≤ s.data.length := by
  obtain ⟨ha, hb⟩ := assignFold_bounds s.clusters s.data [] 0 0
  constructor
  · show (s.data.foldl (assignStep s.clusters) ([], 0, 0)).1.length = _
    rw [ha]
    simp
  · show (s.data.foldl (assignStep s.clusters) ([], 0, 0)).2.1 ≤ _
    simpa using hb

/-- C8 counterexample: the freshly constructed engine is reachable, has
no points, and reports `data_points_moved = 2^32 - 1` (the `unsigned
int` sentinel), which is NOT in `[0, point_count] = [0, 0]`. -/
theorem moved_count_sentinel_after_construction :
    ReachableTs tsClustersInit ∧
      ¬(tsClustersInit.data_points_moved ≤ tsClustersInit.data.length) :=
  ⟨ReachableTs.init, by decide⟩

/-- C8 (amended): in every reachable engine state the accessor value
`data_points_moved` is either the "unset" sentinel
`std::numeric_limits<unsigned int>::max()` (it starts there and no
operation before the first assignment pass changes it) or at most the
number of loaded points. -/
theorem moved_count_invariant (s : TsClusters) (h : ReachableTs s) :
    s.data_points_moved = uintMax ∨
      s.data_points_moved ≤ s.data.length := by
  induction h with
  | init => exact Or.inl rfl
  | load s inp st s' n _ hf ih =>
    obtain ⟨hm, hd⟩ := fill_data_array_moved_and_growth s inp st s' n hf
    cases ih with
    | inl hsent => exact Or.inl (hm.trans hsent)
    | inr hle => exact Or.inr (le_trans (hm ▸ hle) hd)
  | setk s k _ ih =>
    obtain ⟨hm, hd⟩ := set_number_of_clusters_moved_and_data s k
    rw [hm, hd]
    exact ih
  | initc s r s' _ hf ih =>
    obtain ⟨hm, hd⟩ := initialize_clusters_moved_and_data s r s' hf
    rw [hm, hd]
    exact ih
  | assign s _ _ =>
    obtain ⟨ha, hb⟩ := assign_clusters_moved_le s
    exact Or.inr (by rw [ha]; exact hb)
  | recompute s s' _ hf ih =>
    obtain ⟨hm, hd⟩ := compute_centroids_moved_and_data s s' hf
    rw [hm, hd]
    exact ih

/-- C8 witness: the invariant instantiated at the freshly constructed
(reachable) engine, where the sentinel disjunct holds. -/
theorem moved_count_invariant_witness :
    tsClustersInit.data_points_moved = uintMax ∨
      tsClustersInit.data_points_moved ≤ tsClustersInit.data.length :=
  moved_count_invariant tsClustersInit ReachableTs.init
